import Mathlib

/-!
Verification of the compression core of `google_job.py`: the page rasterizer
(`render_pages_to_images`), the canvas composer (`compose_images_to_target_size`)
and the budget search controller (`iterative_compress_to_limit`), embedded
shallowly over exact integer arithmetic.

Real-number computations of the source (`round(x * dpi / 72.0)`,
`min(tw/iw, th/ih)`, `int(round(iw * ratio))`) are carried out on exact
fractions `a / b` with a positive denominator, represented by their integer
numerator and denominator. Note that Lean's `/` and `%` on `ℤ` round toward
negative infinity for positive divisors, exactly like Python's `//` and `%`.
-/

namespace GoogleJob

/-- Python's built-in `round` applied to the exact fraction `a / b`
(`b > 0` in every use): nearest integer, ties to even. -/
def pyRound (a b : ℤ) : ℤ :=
  let q := a / b
  let r := a % b
  if 2 * r < b then q
  else if b < 2 * r then q + 1
  else if 2 ∣ q then q else q + 1

/-- A decoded RGB pixel grid for one page: a raster has positive pixel
dimensions. -/
structure Raster where
  w : ℕ
  h : ℕ
  wpos : 0 < w
  hpos : 0 < h

/-- Geometry of one composed output page: the white canvas allocated at the
target pixel size, the resized raster pasted onto it, and the paste offset.
Embeds the per-image body of `compose_images_to_target_size`. -/
structure ComposedPage where
  canvasW : ℤ
  canvasH : ℤ
  pastedW : ℤ
  pastedH : ℤ
  left : ℤ
  top : ℤ
  background : ℕ × ℕ × ℕ
  deriving DecidableEq, Repr

/-- Per-image work of `compose_images_to_target_size`: the uniform scale
factor `ratio = min(target_w_px/iw, target_h_px/ih)` is the exact fraction
`rn / rd` (the comparison `tw/iw ≤ th/ih` is `tw*ih ≤ th*iw` for positive
denominators); `new_w = int(round(iw*ratio))`, `new_h = int(round(ih*ratio))`;
offsets by floor division `// 2`; solid white background. -/
def composePage (target_w_px target_h_px : ℤ) (img : Raster) : ComposedPage :=
  let iw : ℤ := img.w
  let ih : ℤ := img.h
  let rn : ℤ := if target_w_px * ih ≤ target_h_px * iw then target_w_px else target_h_px
  let rd : ℤ := if target_w_px * ih ≤ target_h_px * iw then iw else ih
  let new_w : ℤ := pyRound (iw * rn) rd
  let new_h : ℤ := pyRound (ih * rn) rd
  { canvasW := target_w_px
    canvasH := target_h_px
    pastedW := new_w
    pastedH := new_h
    left := (target_w_px - new_w) / 2
    top := (target_h_px - new_h) / 2
    background := (255, 255, 255) }

/-- The multi-page lossy document produced by the composer: page geometry in
input order, encoded at the given JPEG quality. -/
structure EncodedDoc where
  pages : List ComposedPage
  quality : ℤ
  deriving DecidableEq, Repr

/-- Embeds `compose_images_to_target_size(images, target_w_pt, target_h_pt,
dpi, jpeg_quality)`: target pixel size `int(round(target_pt * dpi / 72.0))`,
one composed page per image in order. `pages[0]` raises on an empty list in
Python; that exit is `none`. -/
def compose_images_to_target_size (images : List Raster)
    (target_w_pt target_h_pt dpi jpeg_quality : ℤ) : Option EncodedDoc :=
  let target_w_px : ℤ := pyRound (target_w_pt * dpi) 72
  let target_h_px : ℤ := pyRound (target_h_pt * dpi) 72
  let pages := images.map (fun img => composePage target_w_px target_h_px img)
  match pages with
  | [] => none
  | _ :: _ => some { pages := pages, quality := jpeg_quality }

/-- Observable resource events of `render_pages_to_images`: `fitz.open`,
per-page `get_pixmap` rendering, `doc.close()`. -/
inductive REvent where
  | eopen : REvent
  | erender : ℕ → REvent
  | eclose : REvent
  deriving DecidableEq, Repr

/-- The page loop of `render_pages_to_images`: each page either decodes to a
raster (`some`) or raises (`none`), in which case the loop aborts with the
pages rendered so far traced but no result returned. -/
def renderLoop : List (Option Raster) → ℕ → Except Unit (List Raster) × List REvent
  | [], _ => (Except.ok [], [])
  | some r :: rest, i =>
    let res := renderLoop rest (i + 1)
    ((res.1).map (fun l => r :: l), REvent.erender i :: res.2)
  | none :: _, i => (Except.error (), [REvent.erender i])

/-- Embeds `render_pages_to_images`: open the document, render every page in
order, and — via `try/finally` — close the document on the normal exit and on
the exceptional exit alike. Returns the result with the event trace. -/
def render_pages_to_images (docPages : List (Option Raster)) :
    Except Unit (List Raster) × List REvent :=
  match renderLoop docPages 0 with
  | (Except.ok imgs, tr) => (Except.ok imgs, REvent.eopen :: (tr ++ [REvent.eclose]))
  | (Except.error e, tr) => (Except.error e, REvent.eopen :: (tr ++ [REvent.eclose]))

/-- The tunable parameters of `iterative_compress_to_limit`
(`MAX_TARGET_BYTES`, `START_DPI`, `MIN_DPI`, `START_JPEG_QUALITY`,
`MIN_JPEG_QUALITY`, `DPI_STEP`, `QUALITY_STEP`). -/
structure SearchParams where
  budget : ℤ
  startDpi : ℤ
  minDpi : ℤ
  startQ : ℤ
  minQ : ℤ
  dpiStep : ℤ
  qStep : ℤ
  deriving DecidableEq, Repr

/-- One run of the `while True` loop of `iterative_compress_to_limit`,
with the render+compose+measure pass abstracted as `sz dpi quality` (the byte
length of the encoded document at those parameters) and explicit fuel; `none`
means the fuel ran out before the loop returned. Returns
`(size, dpi, quality)`; the returned bytes are the encoding at that pair. -/
def searchLoop (p : SearchParams) (sz : ℤ → ℤ → ℕ) :
    ℕ → ℤ → ℤ → Option (ℕ × ℤ × ℤ)
  | 0, _, _ => none
  | fuel + 1, dpi, quality =>
    let size := sz dpi quality
    if (size : ℤ) ≤ p.budget then some (size, dpi, quality)
    else if p.minQ ≤ quality - p.qStep then searchLoop p sz fuel dpi (quality - p.qStep)
    else if p.minDpi ≤ dpi - p.dpiStep then
      searchLoop p sz fuel (dpi - p.dpiStep) p.startQ
    else some (size, dpi, quality)

/-- The descent path: the (dpi, quality) pairs the controller would try, in
order, ignoring the budget check (the full candidate sequence). -/
def descentPath (p : SearchParams) : ℕ → ℤ → ℤ → List (ℤ × ℤ)
  | 0, _, _ => []
  | fuel + 1, dpi, quality =>
    (dpi, quality) ::
      (if p.minQ ≤ quality - p.qStep then descentPath p fuel dpi (quality - p.qStep)
       else if p.minDpi ≤ dpi - p.dpiStep then
         descentPath p fuel (dpi - p.dpiStep) p.startQ
       else [])

/-- The attempts actually made by the loop: the descent path truncated at the
first attempt whose size fits the budget. -/
def visitedPath (p : SearchParams) (sz : ℤ → ℤ → ℕ) : ℕ → ℤ → ℤ → List (ℤ × ℤ)
  | 0, _, _ => []
  | fuel + 1, dpi, quality =>
    (dpi, quality) ::
      (if (sz dpi quality : ℤ) ≤ p.budget then []
       else if p.minQ ≤ quality - p.qStep then visitedPath p sz fuel dpi (quality - p.qStep)
       else if p.minDpi ≤ dpi - p.dpiStep then
         visitedPath p sz fuel (dpi - p.dpiStep) p.startQ
       else [])

/-- Number of quality attempts remaining at the current value `q` before
quality is exhausted. -/
def qRem (p : SearchParams) (q : ℤ) : ℕ :=
  (q - p.minQ).toNat / p.qStep.toNat + 1

/-- Number of resolution reductions remaining below the current value `d`. -/
def dRem (p : SearchParams) (d : ℤ) : ℕ :=
  (d - p.minDpi).toNat / p.dpiStep.toNat

/-- Loop variant: an upper bound on the attempts remaining from state
`(d, q)`. -/
def potential (p : SearchParams) (d q : ℤ) : ℕ :=
  qRem p q + dRem p d * qRem p p.startQ

/-- Exact number of parameter pairs on the full descent path from the start:
`(⌊(startDpi−minDpi)/dpiStep⌋+1) · (⌊(startQ−minQ)/qStep⌋+1)`. -/
def searchFuel (p : SearchParams) : ℕ :=
  ((p.startDpi - p.minDpi).toNat / p.dpiStep.toNat + 1) *
    ((p.startQ - p.minQ).toNat / p.qStep.toNat + 1)

/-- Embeds `iterative_compress_to_limit`: run the loop from
`(START_DPI, START_JPEG_QUALITY)` with fuel covering the whole descent path. -/
def iterative_compress_to_limit (p : SearchParams) (sz : ℤ → ℤ → ℕ) :
    Option (ℕ × ℤ × ℤ) :=
  searchLoop p sz (searchFuel p) p.startDpi p.startQ

/-- The full candidate descent path of one run. -/
def descentList (p : SearchParams) : List (ℤ × ℤ) :=
  descentPath p (searchFuel p) p.startDpi p.startQ

/-- The attempts actually made by one run. -/
def visitedList (p : SearchParams) (sz : ℤ → ℤ → ℕ) : List (ℤ × ℤ) :=
  visitedPath p sz (searchFuel p) p.startDpi p.startQ

/-- Iteration bound stated by the specification:
`⌈(start_res−min_res)/res_step + 1⌉ × ⌈(start_q−min_q)/q_step + 1⌉`. -/
def specBound (p : SearchParams) : ℤ :=
  ⌈((p.startDpi : ℚ) - p.minDpi) / p.dpiStep + 1⌉ *
    ⌈((p.startQ : ℚ) - p.minQ) / p.qStep + 1⌉

/-- Lowest resolution reachable by the descent. -/
def lowestDpi (p : SearchParams) : ℤ :=
  p.startDpi - p.dpiStep * ((p.startDpi - p.minDpi).toNat / p.dpiStep.toNat : ℕ)

/-- Lowest quality reachable by the descent (at the final resolution). -/
def lowestQ (p : SearchParams) : ℤ :=
  p.startQ - p.qStep * ((p.startQ - p.minQ).toNat / p.qStep.toNat : ℕ)

/-- Relation between two successive attempts of one run: resolution never
rises; either quality drops by one step at the same resolution while staying
at or above the minimum, or — only once quality is exhausted — resolution
drops by one step and quality resets to its starting value. -/
def stepRel (p : SearchParams) (a b : ℤ × ℤ) : Prop :=
  b.1 ≤ a.1 ∧
    ((b.1 = a.1 ∧ b.2 = a.2 - p.qStep ∧ p.minQ ≤ b.2) ∨
      (b.1 = a.1 - p.dpiStep ∧ b.2 = p.startQ ∧ a.2 - p.qStep < p.minQ))

instance (p : SearchParams) (a b : ℤ × ℤ) : Decidable (stepRel p a b) := by
  unfold stepRel; infer_instance

/-! ### Rounding lemmas -/

theorem pyRound_le {a n b : ℤ} (hb : 0 < b) (h : a ≤ n * b) : pyRound a b ≤ n := by
  have hq : a / b ≤ n := by
    have hdiv := Int.ediv_le_ediv hb h
    rwa [Int.mul_ediv_cancel n hb.ne'] at hdiv
  simp only [pyRound]
  split_ifs with h1 h2 h3
  · exact hq
  all_goals {
    suffices hlt : a / b < n by omega
    have h2r : b ≤ 2 * (a % b) := by omega
    have hx : b + 2 * (b * (a / b)) ≤ 2 * a := by
      rw [Int.emod_def] at h2r; linarith
    have hmul : b * (1 + 2 * (a / b)) ≤ b * (2 * n) := by nlinarith
    have := le_of_mul_le_mul_left hmul hb
    omega }

theorem pyRound_nonneg {a b : ℤ} (ha : 0 ≤ a) (hb : 0 < b) : 0 ≤ pyRound a b := by
  have hq := Int.ediv_nonneg ha hb.le
  simp only [pyRound]
  split_ifs <;> omega

/-! ### Composer lemmas -/

theorem composePage_canvas (twpx thpx : ℤ) (img : Raster) :
    (composePage twpx thpx img).canvasW = twpx ∧
      (composePage twpx thpx img).canvasH = thpx := by
  constructor <;> rfl

theorem composePage_bounds (twpx thpx : ℤ) (img : Raster)
    (hw : 0 < twpx) (hh : 0 < thpx) :
    0 ≤ (composePage twpx thpx img).pastedW ∧
      0 ≤ (composePage twpx thpx img).pastedH ∧
      (composePage twpx thpx img).pastedW ≤ twpx ∧
      (composePage twpx thpx img).pastedH ≤ thpx := by
  have hiw : (0 : ℤ) < img.w := Int.natCast_pos.mpr img.wpos
  have hih : (0 : ℤ) < img.h := Int.natCast_pos.mpr img.hpos
  simp only [composePage]
  split_ifs with hcase
  · refine ⟨pyRound_nonneg (by positivity) hiw, pyRound_nonneg (by positivity) hiw,
      pyRound_le hiw (by nlinarith), pyRound_le hiw (by nlinarith)⟩
  · push_neg at hcase
    refine ⟨pyRound_nonneg (by positivity) hih, pyRound_nonneg (by positivity) hih,
      pyRound_le hih (by nlinarith), pyRound_le hih (by nlinarith)⟩

theorem composePage_offsets (twpx thpx : ℤ) (img : Raster) :
    (composePage twpx thpx img).left = (twpx - (composePage twpx thpx img).pastedW) / 2 ∧
      (composePage twpx thpx img).top = (thpx - (composePage twpx thpx img).pastedH) / 2 :=
  ⟨rfl, rfl⟩

/-! ### Rasterizer lemmas -/

theorem renderLoop_no_close : ∀ (pages : List (Option Raster)) (i : ℕ),
    REvent.eclose ∉ (renderLoop pages i).2
  | [], i => by simp [renderLoop]
  | some r :: rest, i => by
    simp only [renderLoop, List.mem_cons, not_or]
    exact ⟨by simp, renderLoop_no_close rest (i + 1)⟩
  | none :: rest, i => by simp [renderLoop]

/-! ### Claim theorems for the rasterizer and composer -/

/-- C8. Every call to the rasterizer opens the document handle first and
releases it as the very last event before returning, exactly once — on the
success path and on every failure path (any page failing to decode) alike. -/
theorem render_closes_doc_all_paths (docPages : List (Option Raster)) :
    (render_pages_to_images docPages).2.head? = some REvent.eopen ∧
      (render_pages_to_images docPages).2.getLast? = some REvent.eclose ∧
      (render_pages_to_images docPages).2.count REvent.eclose = 1 := by
  unfold render_pages_to_images
  have hno : REvent.eclose ∉ (renderLoop docPages 0).2 := renderLoop_no_close docPages 0
  rcases h : renderLoop docPages 0 with ⟨res, tr⟩
  rw [h] at hno
  have hlast : (REvent.eopen :: (tr ++ [REvent.eclose])).getLast? = some REvent.eclose := by
    rw [show REvent.eopen :: (tr ++ [REvent.eclose]) =
      (REvent.eopen :: tr) ++ [REvent.eclose] from rfl]
    exact List.getLast?_concat _
  have hcount : (REvent.eopen :: (tr ++ [REvent.eclose])).count REvent.eclose = 1 := by
    rw [List.count_cons, List.count_append, List.count_eq_zero.mpr hno]
    simp
  cases res <;> exact ⟨rfl, hlast, hcount⟩

/-- C7. The composer on zero supplied pages signals the invalid-input exit
(`pages[0]` raises) instead of returning an encoded document. -/
theorem compose_empty_none (target_w_pt target_h_pt dpi jpeg_quality : ℤ) :
    compose_images_to_target_size [] target_w_pt target_h_pt dpi jpeg_quality = none :=
  rfl

/-- C5. For every non-empty raster sequence the composer returns a document
with one page per input raster, and every page's canvas has exactly the
computed target pixel dimensions `round(target_pt · dpi / 72)`. -/
theorem compose_page_count_and_dims (images : List Raster)
    (target_w_pt target_h_pt dpi jpeg_quality : ℤ) (h : images ≠ []) :
    ∃ doc, compose_images_to_target_size images target_w_pt target_h_pt dpi jpeg_quality
        = some doc ∧
      doc.pages.length = images.length ∧
      ∀ pg ∈ doc.pages,
        pg.canvasW = pyRound (target_w_pt * dpi) 72 ∧
          pg.canvasH = pyRound (target_h_pt * dpi) 72 := by
  match images, h with
  | img :: rest, _ =>
    refine ⟨⟨(img :: rest).map
      (fun im => composePage (pyRound (target_w_pt * dpi) 72)
        (pyRound (target_h_pt * dpi) 72) im), jpeg_quality⟩, rfl, by simp, ?_⟩
    intro pg hpg
    rw [List.mem_map] at hpg
    obtain ⟨im, _, rfl⟩ := hpg
    exact ⟨rfl, rfl⟩

/-- Witness for C5 at a concrete input. -/
theorem compose_page_count_and_dims_witness :
    ∃ doc, compose_images_to_target_size
        [⟨1000, 1000, Nat.succ_pos 999, Nat.succ_pos 999⟩] 595 842 150 85 = some doc ∧
      doc.pages.length = 1 ∧
      ∀ pg ∈ doc.pages,
        pg.canvasW = pyRound (595 * 150) 72 ∧ pg.canvasH = pyRound (842 * 150) 72 := by
  have h := compose_page_count_and_dims
    [⟨1000, 1000, Nat.succ_pos 999, Nat.succ_pos 999⟩] 595 842 150 85
    (List.cons_ne_nil _ _)
  simpa using h

/-- C6. Scenario A: a single 1000×1000 raster, target 595×842 units at
resolution 150, quality 85: target pixel size 1240×1754, uniform scale
`min(1240/1000, 1754/1000) = 1.24`, scaled image 1240×1240, pasted at
horizontal offset 0 and vertical offset `(1754−1240)//2 = 257` on the solid
white canvas. -/
theorem compose_scenario_a :
    compose_images_to_target_size [⟨1000, 1000, Nat.succ_pos 999, Nat.succ_pos 999⟩]
        595 842 150 85 =
      some ⟨[⟨1240, 1754, 1240, 1240, 0, 257, (255, 255, 255)⟩], 85⟩ := by
  decide

/-- C10. For every raster (positive dimensions) and positive target pixel
size, the rounded scaled dimensions never exceed the canvas, both centering
offsets are non-negative, and the pasted image lies entirely within the
canvas. -/
theorem pasted_image_within_canvas (twpx thpx : ℤ) (img : Raster)
    (hw : 0 < twpx) (hh : 0 < thpx) :
    (composePage twpx thpx img).pastedW ≤ twpx ∧
      (composePage twpx thpx img).pastedH ≤ thpx ∧
      0 ≤ (composePage twpx thpx img).left ∧
      0 ≤ (composePage twpx thpx img).top ∧
      (composePage twpx thpx img).left + (composePage twpx thpx img).pastedW ≤ twpx ∧
      (composePage twpx thpx img).top + (composePage twpx thpx img).pastedH ≤ thpx := by
  obtain ⟨hw0, hh0, hwle, hhle⟩ := composePage_bounds twpx thpx img hw hh
  obtain ⟨hleft, htop⟩ := composePage_offsets twpx thpx img
  have hl0 : 0 ≤ (composePage twpx thpx img).left := by
    rw [hleft]; exact Int.ediv_nonneg (by omega) (by norm_num)
  have ht0 : 0 ≤ (composePage twpx thpx img).top := by
    rw [htop]; exact Int.ediv_nonneg (by omega) (by norm_num)
  have hlw : (composePage twpx thpx img).left + (composePage twpx thpx img).pastedW ≤ twpx := by
    have hds := Int.ediv_le_self 2
      (show 0 ≤ twpx - (composePage twpx thpx img).pastedW by omega)
    omega
  have hth : (composePage twpx thpx img).top + (composePage twpx thpx img).pastedH ≤ thpx := by
    have hds := Int.ediv_le_self 2
      (show 0 ≤ thpx - (composePage twpx thpx img).pastedH by omega)
    omega
  exact ⟨hwle, hhle, hl0, ht0, hlw, hth⟩

/-- Witness for C10 at a concrete input. -/
theorem pasted_image_within_canvas_witness :
    (composePage 1240 1754 ⟨1000, 1000, Nat.succ_pos 999, Nat.succ_pos 999⟩).pastedW ≤ 1240 ∧
      (composePage 1240 1754 ⟨1000, 1000, Nat.succ_pos 999, Nat.succ_pos 999⟩).pastedH ≤ 1754 ∧
      0 ≤ (composePage 1240 1754 ⟨1000, 1000, Nat.succ_pos 999, Nat.succ_pos 999⟩).left ∧
      0 ≤ (composePage 1240 1754 ⟨1000, 1000, Nat.succ_pos 999, Nat.succ_pos 999⟩).top ∧
      (composePage 1240 1754 ⟨1000, 1000, Nat.succ_pos 999, Nat.succ_pos 999⟩).left +
          (composePage 1240 1754 ⟨1000, 1000, Nat.succ_pos 999, Nat.succ_pos 999⟩).pastedW
        ≤ 1240 ∧
      (composePage 1240 1754 ⟨1000, 1000, Nat.succ_pos 999, Nat.succ_pos 999⟩).top +
          (composePage 1240 1754 ⟨1000, 1000, Nat.succ_pos 999, Nat.succ_pos 999⟩).pastedH
        ≤ 1754 :=
  pasted_image_within_canvas 1240 1754 ⟨1000, 1000, Nat.succ_pos 999, Nat.succ_pos 999⟩
    (by norm_num) (by norm_num)

/-! ### Search loop: counting lemmas -/

theorem qRem_step {p : SearchParams} {q : ℤ} (hq : 0 < p.qStep)
    (h : p.minQ ≤ q - p.qStep) : qRem p (q - p.qStep) + 1 = qRem p q := by
  unfold qRem
  have hs : 0 < p.qStep.toNat := by omega
  have hle : p.qStep.toNat ≤ (q - p.minQ).toNat := by omega
  have hcast : (q - p.qStep - p.minQ).toNat = (q - p.minQ).toNat - p.qStep.toNat := by omega
  rw [hcast, Nat.div_eq_sub_div hs hle]

theorem qRem_exhausted {p : SearchParams} {q : ℤ} (hq : 0 < p.qStep)
    (h : q - p.qStep < p.minQ) : qRem p q = 1 := by
  unfold qRem
  have hlt : (q - p.minQ).toNat < p.qStep.toNat := by omega
  rw [Nat.div_eq_of_lt hlt]

theorem dRem_step {p : SearchParams} {d : ℤ} (hd : 0 < p.dpiStep)
    (h : p.minDpi ≤ d - p.dpiStep) : dRem p (d - p.dpiStep) + 1 = dRem p d := by
  unfold dRem
  have hs : 0 < p.dpiStep.toNat := by omega
  have hle : p.dpiStep.toNat ≤ (d - p.minDpi).toNat := by omega
  have hcast : (d - p.dpiStep - p.minDpi).toNat
      = (d - p.minDpi).toNat - p.dpiStep.toNat := by omega
  rw [hcast, Nat.div_eq_sub_div hs hle]

theorem dRem_exhausted {p : SearchParams} {d : ℤ} (hd : 0 < p.dpiStep)
    (h : d - p.dpiStep < p.minDpi) : dRem p d = 0 := by
  unfold dRem
  have hlt : (d - p.minDpi).toNat < p.dpiStep.toNat := by omega
  exact Nat.div_eq_of_lt hlt

theorem potential_pos (p : SearchParams) (d q : ℤ) : 0 < potential p d q :=
  Nat.lt_of_lt_of_le (Nat.succ_pos _) (Nat.le_add_right _ _)

theorem potential_qstep {p : SearchParams} {d q : ℤ} (hq : 0 < p.qStep)
    (h : p.minQ ≤ q - p.qStep) :
    potential p d (q - p.qStep) + 1 = potential p d q := by
  unfold potential
  have := qRem_step hq h
  omega

theorem potential_dstep {p : SearchParams} {d q : ℤ} (hq : 0 < p.qStep)
    (hd : 0 < p.dpiStep) (hqx : q - p.qStep < p.minQ) (h : p.minDpi ≤ d - p.dpiStep) :
    potential p (d - p.dpiStep) p.startQ + 1 = potential p d q := by
  unfold potential
  rw [qRem_exhausted hq hqx, ← dRem_step hd h]
  ring

theorem potential_start (p : SearchParams) :
    potential p p.startDpi p.startQ = searchFuel p := by
  unfold potential searchFuel qRem dRem
  ring

/-! ### Search loop: termination and attempt count -/

theorem searchLoop_isSome (p : SearchParams) (sz : ℤ → ℤ → ℕ)
    (hq : 0 < p.qStep) (hd : 0 < p.dpiStep) :
    ∀ fuel (d q : ℤ), potential p d q ≤ fuel →
      ∃ r, searchLoop p sz fuel d q = some r := by
  intro fuel
  induction fuel with
  | zero =>
    intro d q hpot
    exact absurd hpot (by simpa using (potential_pos p d q).ne')
  | succ n ih =>
    intro d q hpot
    simp only [searchLoop]
    split_ifs with h1 h2 h3
    · exact ⟨_, rfl⟩
    · refine ih d (q - p.qStep) ?_
      have := potential_qstep (d := d) hq h2
      omega
    · refine ih (d - p.dpiStep) p.startQ ?_
      have := potential_dstep (q := q) hq hd (by omega) h3
      omega
    · exact ⟨_, rfl⟩

theorem visitedPath_length (p : SearchParams) (sz : ℤ → ℤ → ℕ)
    (hq : 0 < p.qStep) (hd : 0 < p.dpiStep) :
    ∀ fuel (d q : ℤ), (visitedPath p sz fuel d q).length ≤ potential p d q := by
  intro fuel
  induction fuel with
  | zero => intro d q; simp [visitedPath]
  | succ n ih =>
    intro d q
    simp only [visitedPath]
    split_ifs with h1 h2 h3
    · simpa using potential_pos p d q
    · have hrec := ih d (q - p.qStep)
      have := potential_qstep (d := d) hq h2
      simp only [List.length_cons]
      omega
    · have hrec := ih (d - p.dpiStep) p.startQ
      have := potential_dstep (q := q) hq hd (by omega) h3
      simp only [List.length_cons]
      omega
    · simpa using potential_pos p d q

/-! ### Search loop: first success wins -/

/-- The budget test of one attempt: the encoded size fits the budget. -/
def fits (p : SearchParams) (sz : ℤ → ℤ → ℕ) (pr : ℤ × ℤ) : Bool :=
  decide ((sz pr.1 pr.2 : ℤ) ≤ p.budget)

theorem searchLoop_find (p : SearchParams) (sz : ℤ → ℤ → ℕ) :
    ∀ fuel (d q : ℤ) (pr : ℤ × ℤ),
      (descentPath p fuel d q).find? (fits p sz) = some pr →
      searchLoop p sz fuel d q = some (sz pr.1 pr.2, pr.1, pr.2) ∧
        visitedPath p sz fuel d q =
          (descentPath p fuel d q).takeWhile (fun x => !(fits p sz x)) ++ [pr] := by
  intro fuel
  induction fuel with
  | zero => intro d q pr h; simp [descentPath] at h
  | succ n ih =>
    intro d q pr h
    by_cases hfit : fits p sz (d, q)
    · have hprop : (sz d q : ℤ) ≤ p.budget := by simpa [fits] using hfit
      have hpr : pr = (d, q) := by
        simp only [descentPath, List.find?_cons_of_pos _ hfit, Option.some_inj] at h
        exact h.symm
      subst hpr
      constructor
      · simp only [searchLoop, if_pos hprop]
      · simp [visitedPath, if_pos hprop, descentPath, List.takeWhile_cons, hfit]
    · have hprop : ¬((sz d q : ℤ) ≤ p.budget) := by simpa [fits] using hfit
      simp only [descentPath, List.find?_cons_of_neg _ hfit] at h
      by_cases h2 : p.minQ ≤ q - p.qStep
      · rw [if_pos h2] at h
        obtain ⟨ih1, ih2⟩ := ih d (q - p.qStep) pr h
        constructor
        · simpa only [searchLoop, if_neg hprop, if_pos h2] using ih1
        · simp only [visitedPath, if_neg hprop, if_pos h2, descentPath,
            List.takeWhile_cons, hfit, Bool.not_false, if_true, ih2, List.cons_append]
      · rw [if_neg h2] at h
        by_cases h3 : p.minDpi ≤ d - p.dpiStep
        · rw [if_pos h3] at h
          obtain ⟨ih1, ih2⟩ := ih (d - p.dpiStep) p.startQ pr h
          constructor
          · simpa only [searchLoop, if_neg hprop, if_neg h2, if_pos h3] using ih1
          · simp only [visitedPath, if_neg hprop, if_neg h2, if_pos h3, descentPath,
              List.takeWhile_cons, hfit, Bool.not_false, if_true, ih2, List.cons_append]
        · rw [if_neg h3] at h
          simp at h

/-! ### Search loop: floor of the descent when nothing fits -/

/-- Quality value at which the quality descent from `q` stops. -/
def qBottom (p : SearchParams) (q : ℤ) : ℤ :=
  q - p.qStep * (((q - p.minQ).toNat / p.qStep.toNat : ℕ) : ℤ)

/-- Final (dpi, quality) pair of the full descent from state `(d, q)`. -/
def bottom (p : SearchParams) (d q : ℤ) : ℤ × ℤ :=
  (d - p.dpiStep * ((dRem p d : ℕ) : ℤ),
    if dRem p d = 0 then qBottom p q else qBottom p p.startQ)

theorem qBottom_step {p : SearchParams} {q : ℤ} (hq : 0 < p.qStep)
    (h : p.minQ ≤ q - p.qStep) : qBottom p (q - p.qStep) = qBottom p q := by
  unfold qBottom
  have hs : 0 < p.qStep.toNat := by omega
  have hle : p.qStep.toNat ≤ (q - p.minQ).toNat := by omega
  have hcast : (q - p.qStep - p.minQ).toNat = (q - p.minQ).toNat - p.qStep.toNat := by omega
  rw [hcast, Nat.div_eq_sub_div hs hle]
  push_cast
  ring

theorem qBottom_stop {p : SearchParams} {q : ℤ} (hq : 0 < p.qStep)
    (h : q - p.qStep < p.minQ) : qBottom p q = q := by
  unfold qBottom
  have hlt : (q - p.minQ).toNat < p.qStep.toNat := by omega
  rw [Nat.div_eq_of_lt hlt]
  simp

theorem bottom_qstep {p : SearchParams} {d q : ℤ} (hq : 0 < p.qStep)
    (h : p.minQ ≤ q - p.qStep) : bottom p d (q - p.qStep) = bottom p d q := by
  unfold bottom
  rw [qBottom_step hq h]

theorem bottom_dstep {p : SearchParams} {d q : ℤ} (hd : 0 < p.dpiStep)
    (h : p.minDpi ≤ d - p.dpiStep) : bottom p (d - p.dpiStep) p.startQ = bottom p d q := by
  unfold bottom
  have hds := dRem_step hd h
  have h1 : d - p.dpiStep - p.dpiStep * ((dRem p (d - p.dpiStep) : ℕ) : ℤ)
      = d - p.dpiStep * ((dRem p d : ℕ) : ℤ) := by
    rw [← hds]
    push_cast
    ring
  have h2 : dRem p d ≠ 0 := by omega
  rw [h1, if_neg h2, ite_self]

theorem bottom_stop {p : SearchParams} {d q : ℤ} (hq : 0 < p.qStep) (hd : 0 < p.dpiStep)
    (h2 : q - p.qStep < p.minQ) (h3 : d - p.dpiStep < p.minDpi) :
    bottom p d q = (d, q) := by
  unfold bottom
  rw [dRem_exhausted hd h3]
  simp [qBottom_stop hq h2]

theorem searchLoop_allFail (p : SearchParams) (sz : ℤ → ℤ → ℕ)
    (hq : 0 < p.qStep) (hd : 0 < p.dpiStep) :
    ∀ fuel (d q : ℤ), potential p d q ≤ fuel →
      (∀ pr ∈ descentPath p fuel d q, fits p sz pr = false) →
      searchLoop p sz fuel d q =
        some (sz (bottom p d q).1 (bottom p d q).2, (bottom p d q).1, (bottom p d q).2) := by
  intro fuel
  induction fuel with
  | zero =>
    intro d q hpot _
    exact absurd hpot (by simpa using (potential_pos p d q).ne')
  | succ n ih =>
    intro d q hpot hall
    have hhead : fits p sz (d, q) = false := by
      refine hall (d, q) ?_
      simp [descentPath]
    have hprop : ¬((sz d q : ℤ) ≤ p.budget) := by
      simpa [fits] using hhead
    by_cases h2 : p.minQ ≤ q - p.qStep
    · have htail : ∀ pr ∈ descentPath p n d (q - p.qStep), fits p sz pr = false := by
        intro pr hm
        refine hall pr ?_
        simp [descentPath, if_pos h2, hm]
      have hpot' : potential p d (q - p.qStep) ≤ n := by
        have := potential_qstep (d := d) hq h2
        omega
      have hrec := ih d (q - p.qStep) hpot' htail
      rw [bottom_qstep hq h2] at hrec
      simpa only [searchLoop, if_neg hprop, if_pos h2] using hrec
    · by_cases h3 : p.minDpi ≤ d - p.dpiStep
      · have htail : ∀ pr ∈ descentPath p n (d - p.dpiStep) p.startQ,
            fits p sz pr = false := by
          intro pr hm
          refine hall pr ?_
          simp [descentPath, if_neg h2, if_pos h3, hm]
        have hpot' : potential p (d - p.dpiStep) p.startQ ≤ n := by
          have := potential_dstep (q := q) hq hd (by omega) h3
          omega
        have hrec := ih (d - p.dpiStep) p.startQ hpot' htail
        rw [bottom_dstep hd h3] at hrec
        simpa only [searchLoop, if_neg hprop, if_neg h2, if_pos h3] using hrec
      · rw [bottom_stop hq hd (by omega) (by omega)]
        simp only [searchLoop, if_neg hprop, if_neg h2, if_neg h3]

theorem bottom_start (p : SearchParams) :
    bottom p p.startDpi p.startQ = (lowestDpi p, lowestQ p) := by
  unfold bottom lowestDpi lowestQ qBottom dRem
  split_ifs <;> rfl

/-! ### Search loop: shape of consecutive attempts -/

theorem visitedPath_chain (p : SearchParams) (sz : ℤ → ℤ → ℕ)
    (hq : 0 < p.qStep) (hd : 0 < p.dpiStep) :
    ∀ fuel (d q : ℤ), List.Chain' (stepRel p) (visitedPath p sz fuel d q) := by
  intro fuel
  induction fuel with
  | zero => intro d q; simp [visitedPath]
  | succ n ih =>
    intro d q
    simp only [visitedPath]
    split_ifs with h1 h2 h3
    · simp
    · rw [List.chain'_cons']
      refine ⟨?_, ih d (q - p.qStep)⟩
      intro y hy
      have hy' : y = (d, q - p.qStep) := by
        cases n with
        | zero => simp [visitedPath] at hy
        | succ m =>
          simp only [visitedPath, List.head?_cons, Option.mem_def, Option.some_inj] at hy
          exact hy.symm
      subst hy'
      exact ⟨by simp, Or.inl ⟨rfl, rfl, h2⟩⟩
    · rw [List.chain'_cons']
      refine ⟨?_, ih (d - p.dpiStep) p.startQ⟩
      intro y hy
      have hy' : y = (d - p.dpiStep, p.startQ) := by
        cases n with
        | zero => simp [visitedPath] at hy
        | succ m =>
          simp only [visitedPath, List.head?_cons, Option.mem_def, Option.some_inj] at hy
          exact hy.symm
      subst hy'
      exact ⟨by omega, Or.inr ⟨rfl, rfl, by omega⟩⟩
    · simp

/-! ### Search loop: the specification's iteration bound -/

theorem natDiv_cast_floor {a b : ℤ} (ha : 0 ≤ a) (hb : 0 < b) :
    ((a.toNat / b.toNat : ℕ) : ℤ) = ⌊(a : ℚ) / (b : ℚ)⌋ := by
  have h1 : ((a.toNat : ℤ)) = a := Int.toNat_of_nonneg ha
  have h2 : ((b.toNat : ℤ)) = b := Int.toNat_of_nonneg hb.le
  calc ((a.toNat / b.toNat : ℕ) : ℤ)
      = (a.toNat : ℤ) / (b.toNat : ℤ) := Int.ofNat_div _ _
    _ = a / (b.toNat : ℤ) := by rw [h1]
    _ = ⌊(a : ℚ) / (b.toNat : ℚ)⌋ := (Rat.floor_intCast_div_natCast a b.toNat).symm
    _ = ⌊(a : ℚ) / (b : ℚ)⌋ := by
        have h3 : ((b.toNat : ℕ) : ℚ) = (b : ℚ) := by exact_mod_cast h2
        rw [h3]

theorem searchFuel_le_specBound (p : SearchParams) (hq : 0 < p.qStep)
    (hd : 0 < p.dpiStep) (hsq : p.minQ ≤ p.startQ) (hsd : p.minDpi ≤ p.startDpi) :
    (searchFuel p : ℤ) ≤ specBound p := by
  unfold searchFuel specBound
  have hfd := natDiv_cast_floor (sub_nonneg.mpr hsd) hd
  have hfq := natDiv_cast_floor (sub_nonneg.mpr hsq) hq
  push_cast at hfd hfq ⊢
  rw [Int.ceil_add_one, Int.ceil_add_one]
  have hA : (((p.startDpi - p.minDpi).toNat : ℤ)) / ((p.dpiStep.toNat : ℤ))
      ≤ ⌈((p.startDpi : ℚ) - p.minDpi) / p.dpiStep⌉ := by
    rw [hfd]; exact Int.floor_le_ceil _
  have hB : (((p.startQ - p.minQ).toNat : ℤ)) / ((p.qStep.toNat : ℤ))
      ≤ ⌈((p.startQ : ℚ) - p.minQ) / p.qStep⌉ := by
    rw [hfq]; exact Int.floor_le_ceil _
  have hA0 : (0 : ℤ) ≤ (((p.startDpi - p.minDpi).toNat : ℤ)) / ((p.dpiStep.toNat : ℤ)) :=
    Int.ediv_nonneg (Nat.cast_nonneg _) (Nat.cast_nonneg _)
  have hB0 : (0 : ℤ) ≤ (((p.startQ - p.minQ).toNat : ℤ)) / ((p.qStep.toNat : ℤ)) :=
    Int.ediv_nonneg (Nat.cast_nonneg _) (Nat.cast_nonneg _)
  exact mul_le_mul (by omega) (by omega) (by omega) (by omega)

/-! ### Concrete parameter sets used for witnesses and counterexamples -/

/-- Parameters whose resolution range is not divisible by the resolution step
(`80 → 72` with step `10`), with an unreachable budget of `0`. -/
def P0 : SearchParams := ⟨0, 80, 72, 35, 30, 10, 5⟩

/-- The default configuration of the source (`MAX_TARGET_BYTES = 1MiB` is
rounded here to `1000000`, `START_DPI = 150`, `MIN_DPI = 72`,
`START_JPEG_QUALITY = 85`, `MIN_JPEG_QUALITY = 30`, steps `10` and `5`). -/
def P1 : SearchParams := ⟨1000000, 150, 72, 85, 30, 10, 5⟩

/-- Parameters with budget `10`, start `(100, 85)`. -/
def P2 : SearchParams := ⟨10, 100, 72, 85, 30, 10, 5⟩

/-- Degenerate parameters: start equals minimum on both axes. -/
def P3 : SearchParams := ⟨0, 72, 72, 30, 30, 10, 5⟩

/-- A measured size of one byte for every attempt. -/
def szOne : ℤ → ℤ → ℕ := fun _ _ => 1

/-- A measured size far above every budget used here. -/
def szBig : ℤ → ℤ → ℕ := fun _ _ => 2000000

/-- A measured size that first fits once quality has dropped to 80. -/
def szDrop : ℤ → ℤ → ℕ := fun _ q => if q ≤ 80 then 5 else 20

/-! ### Claim theorems for the budget search controller -/

/-- C1 counterexample: with resolution range `80 → 72` and step `10` nothing
ever fits a zero budget, yet the returned best-effort result is computed at
resolution `80`, not at `min_resolution = 72`: the descent floor is not
`(min_resolution, min_quality)`. -/
theorem budget_search_min_pair_cex :
    (∀ pr ∈ descentList P0, ¬((szOne pr.1 pr.2 : ℤ) ≤ P0.budget)) ∧
      0 < P0.qStep ∧ 0 < P0.dpiStep ∧ P0.minQ ≤ P0.startQ ∧ P0.minDpi ≤ P0.startDpi ∧
      iterative_compress_to_limit P0 szOne = some (1, 80, 30) ∧
      iterative_compress_to_limit P0 szOne ≠
        some (szOne P0.minDpi P0.minQ, P0.minDpi, P0.minQ) := by
  decide

/-- C1 (amended). If some pair on the descent path fits the budget, the run
returns a result whose size fits the budget; otherwise it returns the result
computed at the lowest reachable pair
`(startDpi − dpiStep·⌊(startDpi−minDpi)/dpiStep⌋,
startQ − qStep·⌊(startQ−minQ)/qStep⌋)` — which equals
`(min_resolution, min_quality)` exactly when the steps divide the ranges. -/
theorem budget_search_first_fit_or_floor (p : SearchParams) (sz : ℤ → ℤ → ℕ)
    (hq : 0 < p.qStep) (hd : 0 < p.dpiStep)
    (hsq : p.minQ ≤ p.startQ) (hsd : p.minDpi ≤ p.startDpi) :
    ((∃ pr ∈ descentList p, (sz pr.1 pr.2 : ℤ) ≤ p.budget) →
        ∃ r, iterative_compress_to_limit p sz = some r ∧ ((r.1 : ℤ) ≤ p.budget)) ∧
      ((∀ pr ∈ descentList p, ¬((sz pr.1 pr.2 : ℤ) ≤ p.budget)) →
        iterative_compress_to_limit p sz =
          some (sz (lowestDpi p) (lowestQ p), lowestDpi p, lowestQ p)) := by
  constructor
  · intro hex
    have hsome : ((descentList p).find? (fits p sz)).isSome := by
      rw [List.find?_isSome]
      obtain ⟨pr, hmem, hle⟩ := hex
      exact ⟨pr, hmem, by simpa [fits] using hle⟩
    obtain ⟨pr, hpr⟩ := Option.isSome_iff_exists.mp hsome
    obtain ⟨h1, _⟩ := searchLoop_find p sz (searchFuel p) p.startDpi p.startQ pr hpr
    refine ⟨(sz pr.1 pr.2, pr.1, pr.2), h1, ?_⟩
    have hfit := List.find?_some hpr
    simpa [fits] using hfit
  · intro hall
    have hfail : ∀ pr ∈ descentList p, fits p sz pr = false := fun pr hm =>
      decide_eq_false (hall pr hm)
    have hres := searchLoop_allFail p sz hq hd (searchFuel p) p.startDpi p.startQ
      (potential_start p).le hfail
    rw [bottom_start p] at hres
    exact hres

/-- Witness for the amended C1 at a concrete input. -/
theorem budget_search_first_fit_or_floor_witness :
    ((∃ pr ∈ descentList P1, (szOne pr.1 pr.2 : ℤ) ≤ P1.budget) →
        ∃ r, iterative_compress_to_limit P1 szOne = some r ∧ ((r.1 : ℤ) ≤ P1.budget)) ∧
      ((∀ pr ∈ descentList P1, ¬((szOne pr.1 pr.2 : ℤ) ≤ P1.budget)) →
        iterative_compress_to_limit P1 szOne =
          some (szOne (lowestDpi P1) (lowestQ P1), lowestDpi P1, lowestQ P1)) :=
  budget_search_first_fit_or_floor P1 szOne (by decide) (by decide) (by decide) (by decide)

/-- C2. The first attempt of the descent whose size fits the budget is the
returned result, together with the (dpi, quality) pair that produced it, and
the attempts actually made are exactly the failing ones before it followed by
that single passing attempt — nothing afterwards. -/
theorem first_success_returned (p : SearchParams) (sz : ℤ → ℤ → ℕ) (pr : ℤ × ℤ)
    (h : (descentList p).find? (fits p sz) = some pr) :
    iterative_compress_to_limit p sz = some (sz pr.1 pr.2, pr.1, pr.2) ∧
      visitedList p sz =
        (descentList p).takeWhile (fun x => !(fits p sz x)) ++ [pr] :=
  searchLoop_find p sz (searchFuel p) p.startDpi p.startQ pr h

/-- Witness for C2 at a concrete input whose second attempt passes. -/
theorem first_success_returned_witness :
    iterative_compress_to_limit P2 szDrop = some (szDrop 100 80, 100, 80) ∧
      visitedList P2 szDrop =
        (descentList P2).takeWhile (fun x => !(fits P2 szDrop x)) ++ [(100, 80)] :=
  first_success_returned P2 szDrop (100, 80) (by decide)

/-- C3. Across the successive attempts of one run, resolution never rises;
every step either lowers quality by one step at the same resolution while
staying at or above the minimum quality, or — only once the next quality step
would fall below the minimum — lowers resolution by one step and resets
quality to its starting value. -/
theorem descent_monotone_invariant (p : SearchParams) (sz : ℤ → ℤ → ℕ)
    (hq : 0 < p.qStep) (hd : 0 < p.dpiStep) :
    List.Chain' (stepRel p) (visitedList p sz) :=
  visitedPath_chain p sz hq hd (searchFuel p) p.startDpi p.startQ

/-- Witness for C3 at a concrete input that walks the whole descent. -/
theorem descent_monotone_invariant_witness :
    List.Chain' (stepRel P1) (visitedList P1 szBig) :=
  descent_monotone_invariant P1 szBig (by decide) (by decide)

/-- C4. For positive steps and start at or above the minimum on both axes,
the budget search terminates, and the number of rasterize+compose attempts is
at most `⌈(start_res−min_res)/res_step + 1⌉ · ⌈(start_q−min_q)/q_step + 1⌉`. -/
theorem budget_search_terminates_bounded (p : SearchParams) (sz : ℤ → ℤ → ℕ)
    (hq : 0 < p.qStep) (hd : 0 < p.dpiStep)
    (hsq : p.minQ ≤ p.startQ) (hsd : p.minDpi ≤ p.startDpi) :
    (∃ r, iterative_compress_to_limit p sz = some r) ∧
      ((visitedList p sz).length : ℤ) ≤ specBound p := by
  constructor
  · exact searchLoop_isSome p sz hq hd (searchFuel p) p.startDpi p.startQ
      (potential_start p).le
  · have h1 := visitedPath_length p sz hq hd (searchFuel p) p.startDpi p.startQ
    rw [potential_start p] at h1
    have h2 := searchFuel_le_specBound p hq hd hsq hsd
    have h3 : ((visitedList p sz).length : ℤ) ≤ (searchFuel p : ℤ) := by exact_mod_cast h1
    omega

/-- Witness for C4 at a concrete input that exhausts the whole space. -/
theorem budget_search_terminates_bounded_witness :
    (∃ r, iterative_compress_to_limit P1 szBig = some r) ∧
      ((visitedList P1 szBig).length : ℤ) ≤ specBound P1 :=
  budget_search_terminates_bounded P1 szBig (by decide) (by decide) (by decide) (by decide)

/-- C9. When the starting resolution equals the minimum resolution and the
starting quality equals the minimum quality, exactly one attempt is made and
its result is returned whatever its size, with no further iteration. -/
theorem degenerate_range_single_attempt (p : SearchParams) (sz : ℤ → ℤ → ℕ)
    (h1 : p.startDpi = p.minDpi) (h2 : p.startQ = p.minQ)
    (hq : 0 < p.qStep) (hd : 0 < p.dpiStep) :
    iterative_compress_to_limit p sz =
        some (sz p.startDpi p.startQ, p.startDpi, p.startQ) ∧
      visitedList p sz = [(p.startDpi, p.startQ)] := by
  have hfuel : searchFuel p = 0 + 1 := by
    unfold searchFuel
    rw [h1, h2]
    simp
  have hq' : ¬(p.minQ ≤ p.startQ - p.qStep) := by omega
  have hd' : ¬(p.minDpi ≤ p.startDpi - p.dpiStep) := by omega
  unfold iterative_compress_to_limit visitedList
  rw [hfuel]
  constructor
  · simp only [searchLoop, if_neg hq', if_neg hd']
    split_ifs <;> rfl
  · simp only [visitedPath, if_neg hq', if_neg hd']
    split_ifs <;> rfl

/-- Witness for C9 at a concrete degenerate input. -/
theorem degenerate_range_single_attempt_witness :
    iterative_compress_to_limit P3 szOne =
        some (szOne P3.startDpi P3.startQ, P3.startDpi, P3.startQ) ∧
      visitedList P3 szOne = [(P3.startDpi, P3.startQ)] :=
  degenerate_range_single_attempt P3 szOne rfl rfl (by decide) (by decide)

end GoogleJob
